import Mathlib

/-!
Shallow embedding of the BFGS geometry optimizer in
`src/experimental/efficient_validation/bfgs_torch.py`.

Scalars are exact rationals; a configuration of `N` particles is a flat
vector of length `3 * N` (row-major flattening of an `N × 3` array, as in
`numpy.flatten` / `tensor.view(-1, 3)`).  The two numerical routines that
have no exact rational counterpart — `torch.symeig` and the square root
taken when forming per-particle step lengths — are passed to `step` as
oracle arguments; theorems constrain them by their defining properties
(orthogonal eigendecomposition of `H`, nonnegative square root of the row
sums of squares).
-/

namespace BFGSTorch

/-- Flat coordinate / force vector of length `n` (`n = 3 * N`). -/
abbrev Vec (n : ℕ) := Fin n → ℚ

/-- Dense square matrix of size `n × n` (`n = 3 * N`). -/
abbrev Mat (n : ℕ) := Matrix (Fin n) (Fin n) ℚ

/-- Maximum entry of a nonempty vector, as computed by `tensor.max()`
(which raises on an empty tensor, hence the positivity argument). -/
def vmax {n : ℕ} (hn : 0 < n) (v : Fin n → ℚ) : ℚ :=
  Finset.univ.sup' (Finset.univ_nonempty_iff.mpr (Fin.pos_iff_nonempty.mp hn)) v

/-- Row-major flattening of an `N × 3` array into a length-`3 * N` vector,
as done by `r.flatten()` and `f.reshape(-1)`. -/
def flatten {N : ℕ} (p : Fin N → Fin 3 → ℚ) : Fin (3 * N) → ℚ :=
  fun k => p ⟨k.val / 3, by have := k.isLt; omega⟩ ⟨k.val % 3, by omega⟩

/-- Reshaping of a length-`3 * N` vector into an `N × 3` array, as done by
`dr1.view(-1, 3)`. -/
def unflatten {N : ℕ} (v : Fin (3 * N) → ℚ) : Fin N → Fin 3 → ℚ :=
  fun i j => v ⟨3 * i.val + j.val, by have := i.isLt; have := j.isLt; omega⟩

/-- The external system (the `atoms` collaborator): its current positions,
and the force field that recomputes forces from positions on demand
(`get_forces` after a `set_positions` yields refreshed forces). -/
structure Atoms (N : ℕ) where
  positions : Fin N → Fin 3 → ℚ
  forceField : (Fin N → Fin 3 → ℚ) → Fin N → Fin 3 → ℚ

/-- The mutable state owned by a `BFGS` instance (its `self` fields,
except the `atoms` handle, which is threaded separately). -/
structure BFGSState (N : ℕ) where
  maxstep : ℚ
  H : Option (Mat (3 * N))
  H0 : Mat (3 * N)
  r0 : Option (Vec (3 * N))
  f0 : Option (Vec (3 * N))
  fmax : ℚ
  nsteps : ℕ
  max_steps : ℕ

/-- `BFGS.__init__(atoms, maxstep, fmax, alpha)`: the constructed state,
paired with whether the too-large-`maxstep` warning was emitted. -/
def init (N : ℕ) (maxstep fmax alpha : ℚ) : BFGSState N × Bool :=
  ({ maxstep := maxstep
     H := none
     H0 := alpha • (1 : Mat (3 * N))
     r0 := none
     f0 := none
     fmax := fmax
     nsteps := 0
     max_steps := 100000000 }, decide (maxstep > 1.0))

/-- `BFGS.converged`: `(forces ** 2).sum(axis=1).max() < self.fmax ** 2`. -/
def converged {N : ℕ} (hN : 0 < N) (s : BFGSState N) (atoms : Atoms N) : Bool :=
  let forces := atoms.forceField atoms.positions
  decide (vmax hN (fun i => ∑ j : Fin 3, forces i j ^ 2) < s.fmax ^ 2)

/-- `BFGS.update(r, f, r0, f0)`: returns the new value of `self.H`.
`none` models the runtime error raised when `H` is set but `r0`/`f0` are
still `None` (unreachable from a fresh instance). -/
def update {n : ℕ} (hn : 0 < n) (H : Option (Mat n)) (H0 : Mat n)
    (r f : Vec n) (r0 f0 : Option (Vec n)) : Option (Mat n) :=
  match H with
  | none => some H0
  | some Hm =>
    match r0, f0 with
    | some r0v, some f0v =>
      let dr := r - r0v
      if vmax hn (fun i => |dr i|) < 1 / 10 ^ 7 then some Hm
      else
        let df := f - f0v
        let a := Matrix.dotProduct dr df
        let dg := Hm.mulVec dr
        let b := Matrix.dotProduct dr dg
        let val := (Matrix.vecMulVec df df).map (fun x => x / a) +
          (Matrix.vecMulVec dg dg).map (fun x => x / b)
        some (Hm - val)
    | _, _ => none

/-- `BFGS.determine_step(dr, steplengths)`. -/
def determine_step {N : ℕ} (hN : 0 < N) (maxstep : ℚ)
    (dr : Fin N → Fin 3 → ℚ) (steplengths : Fin N → ℚ) : Fin N → Fin 3 → ℚ :=
  let maxsteplength := vmax hN steplengths
  if maxsteplength ≥ maxstep then fun i j => dr i j * (maxstep / maxsteplength)
  else dr

/-- The raw (uncapped) displacement computed in `BFGS.step` from the
eigendecomposition `omega, V` of `H`:
`torch.matmul(V1, torch.matmul(arg2, V1) / torch.abs(omega1))`,
reshaped to `N × 3`. -/
def rawStep {N : ℕ} (f : Vec (3 * N)) (omega : Vec (3 * N)) (V : Mat (3 * N)) :
    Fin N → Fin 3 → ℚ :=
  unflatten (V.mulVec fun j => Matrix.vecMul f V j / |omega j|)

/-- `BFGS.step()`.  `omega, V` stand for the output of
`torch.symeig(self.H, eigenvectors=True)` and `sl` for
`(dr1 ** 2).sum(1) ** 0.5`; theorems restrict them to valid outputs.
Returns the new optimizer state and the new external system. -/
def step {N : ℕ} (hN : 0 < N) (s : BFGSState N) (atoms : Atoms N)
    (omega : Vec (3 * N)) (V : Mat (3 * N)) (sl : Fin N → ℚ) :
    Option (BFGSState N × Atoms N) :=
  let r := atoms.positions
  let f := atoms.forceField atoms.positions
  let arg1 := flatten r
  let arg2 := flatten f
  match update (by omega) s.H s.H0 arg1 arg2 s.r0 s.f0 with
  | none => none
  | some H1 =>
    let dr1 := rawStep arg2 omega V
    let dr2 := determine_step hN s.maxstep dr1 sl
    some ({ s with H := some H1, r0 := some arg1, f0 := some arg2 },
      { atoms with positions := fun i j => r i j + dr2 i j })

/-- The loop body of `BFGS.run`, with the effectively-unbounded iteration
count turned into explicit fuel (`self.max_steps - self.nsteps`).  The
oracle streams `eigO`, `slO` supply the `torch.symeig` and square-root
results of the `nsteps`-th iteration. -/
def runAux {N : ℕ} (hN : 0 < N)
    (eigO : ℕ → Vec (3 * N) × Mat (3 * N)) (slO : ℕ → Fin N → ℚ) :
    ℕ → BFGSState N → Atoms N → Option (BFGSState N × Atoms N)
  | 0, s, atoms => some (s, atoms)
  | fuel + 1, s, atoms =>
    if converged hN s atoms then some (s, atoms)
    else
      match step hN s atoms (eigO s.nsteps).1 (eigO s.nsteps).2 (slO s.nsteps) with
      | none => none
      | some (s1, atoms1) =>
        runAux hN eigO slO fuel { s1 with nsteps := s1.nsteps + 1 } atoms1

/-- `BFGS.run(fmax=0.05)`: iterate `step` while not converged and
`nsteps < max_steps`.  The body of the Python method never reads its
`fmax` parameter (convergence uses `self.fmax`), and neither does this
definition. -/
def run {N : ℕ} (hN : 0 < N)
    (eigO : ℕ → Vec (3 * N) × Mat (3 * N)) (slO : ℕ → Fin N → ℚ)
    (s : BFGSState N) (atoms : Atoms N) (fmax : ℚ) :
    Option (BFGSState N × Atoms N) :=
  runAux hN eigO slO (s.max_steps - s.nsteps) s atoms

/-! ### Concrete example data for witnesses -/

/-- One particle at the origin. -/
def zpos : Fin 1 → Fin 3 → ℚ := fun _ _ => 0

/-- One particle with force `(0, 0, -1)`. -/
def fz : Fin 1 → Fin 3 → ℚ := fun _ j => if j = 2 then -1 else 0

/-- A one-particle external system at the origin whose force field constantly
reports `(0, 0, -1)`. -/
def atomsZ : Atoms 1 := ⟨zpos, fun _ => fz⟩

/-- Step lengths of a single particle whose displacement has length 1. -/
def sl1 : Fin 1 → ℚ := fun _ => 1

/-- Step lengths of a single particle whose displacement has length `1/70`. -/
def sl70 : Fin 1 → ℚ := fun _ => 1/70

/-- The default initial Hessian approximation for one particle, `70 • I`. -/
def H70 : Mat (3 * 1) := (70 : ℚ) • 1

/-- The optimizer state after one `step()` on a fresh default Core driving
`atomsZ`. -/
def s1c : BFGSState 1 :=
  { (init 1 (1/25) (1/20) 70).1 with
      H := some H70
      r0 := some (flatten atomsZ.positions)
      f0 := some (flatten (atomsZ.forceField atomsZ.positions)) }

/-- The external system after one `step()` on a fresh default Core driving
`atomsZ`. -/
def a1c : Atoms 1 :=
  { atomsZ with
      positions := fun i j => atomsZ.positions i j +
        determine_step Nat.one_pos (1/25)
          (rawStep (flatten (atomsZ.forceField atomsZ.positions)) (fun _ => 70) 1)
          sl70 i j }

/-- The optimizer state after a second `step()` against an unchanged
external system. -/
def s2c : BFGSState 1 :=
  { s1c with
      H := some H70
      r0 := some (flatten atomsZ.positions)
      f0 := some (flatten (atomsZ.forceField atomsZ.positions)) }

/-- The constant-zero flat vector of length 1. -/
def v0 : Vec 1 := fun _ => 0

/-- The constant-one flat vector of length 1. -/
def v1 : Vec 1 := fun _ => 1

/-- The constant-two flat vector of length 1. -/
def v2 : Vec 1 := fun _ => 2

/-! ### Basic facts about `vmax`, `flatten` and `unflatten` -/

theorem le_vmax {n : ℕ} (hn : 0 < n) (v : Fin n → ℚ) (i : Fin n) : v i ≤ vmax hn v :=
  Finset.le_sup' v (Finset.mem_univ i)

theorem vmax_le {n : ℕ} (hn : 0 < n) (v : Fin n → ℚ) (c : ℚ) (h : ∀ i, v i ≤ c) :
    vmax hn v ≤ c :=
  Finset.sup'_le _ v fun i _ => h i

theorem vmax_lt_iff {n : ℕ} (hn : 0 < n) (v : Fin n → ℚ) (c : ℚ) :
    vmax hn v < c ↔ ∀ i, v i < c := by
  rw [vmax, Finset.sup'_lt_iff]
  exact ⟨fun h i => h i (Finset.mem_univ i), fun h i _ => h i⟩

theorem exists_eq_vmax {n : ℕ} (hn : 0 < n) (v : Fin n → ℚ) : ∃ i, vmax hn v = v i := by
  obtain ⟨i, -, h⟩ := Finset.exists_mem_eq_sup' (α := ℚ)
    (Finset.univ_nonempty_iff.mpr (Fin.pos_iff_nonempty.mp hn)) v
  exact ⟨i, h⟩

theorem vmax_const {n : ℕ} (hn : 0 < n) (c : ℚ) : vmax hn (fun _ => c) = c :=
  Finset.sup'_const _ c

theorem vmax_fin1 (hn : 0 < 1) (v : Fin 1 → ℚ) : vmax hn v = v 0 :=
  le_antisymm (vmax_le hn v (v 0) fun i => by fin_cases i; exact le_rfl) (le_vmax hn v 0)

theorem flatten_at {N : ℕ} (p : Fin N → Fin 3 → ℚ) (i : Fin N) (j : Fin 3)
    (h : 3 * i.val + j.val < 3 * N) :
    flatten p ⟨3 * i.val + j.val, h⟩ = p i j := by
  show p _ _ = p i j
  have hj := j.isLt
  congr 1
  · exact Fin.ext (by simp only; omega)
  · exact Fin.ext (by simp only; omega)

theorem unflatten_flatten {N : ℕ} (p : Fin N → Fin 3 → ℚ) : unflatten (flatten p) = p := by
  funext i j
  show p _ _ = p i j
  have hj := j.isLt
  congr 1
  · exact Fin.ext (by simp only []; omega)
  · exact Fin.ext (by simp only []; omega)

/-- Unfolding of `step` when the inner `update` call succeeds. -/
theorem step_eq {N : ℕ} (hN : 0 < N) (s : BFGSState N) (atoms : Atoms N)
    (omega : Vec (3 * N)) (V : Mat (3 * N)) (sl : Fin N → ℚ) (H1 : Mat (3 * N))
    (hupd : ∀ hn : 0 < 3 * N, update hn s.H s.H0 (flatten atoms.positions)
      (flatten (atoms.forceField atoms.positions)) s.r0 s.f0 = some H1) :
    step hN s atoms omega V sl =
      some ({ s with
                H := some H1
                r0 := some (flatten atoms.positions)
                f0 := some (flatten (atoms.forceField atoms.positions)) },
        { atoms with positions := fun i j => atoms.positions i j +
                       determine_step hN s.maxstep
                         (rawStep (flatten (atoms.forceField atoms.positions)) omega V)
                         sl i j }) := by
  unfold step
  dsimp only
  rw [hupd]

/-- Inversion of `step`: a successful call came from a successful `update`,
and the new state caches the read snapshot and the updated `H`. -/
theorem step_inv {N : ℕ} (hN : 0 < N) (hn : 0 < 3 * N) (s : BFGSState N) (atoms : Atoms N)
    (omega : Vec (3 * N)) (V : Mat (3 * N)) (sl : Fin N → ℚ) (s1 : BFGSState N) (a1 : Atoms N)
    (h : step hN s atoms omega V sl = some (s1, a1)) :
    ∃ H1 : Mat (3 * N),
      update hn s.H s.H0 (flatten atoms.positions)
          (flatten (atoms.forceField atoms.positions)) s.r0 s.f0 = some H1 ∧
      s1 = { s with
               H := some H1
               r0 := some (flatten atoms.positions)
               f0 := some (flatten (atoms.forceField atoms.positions)) } := by
  rcases hu : update hn s.H s.H0 (flatten atoms.positions)
      (flatten (atoms.forceField atoms.positions)) s.r0 s.f0 with _ | H1
  · have hgen : ∀ hn' : 0 < 3 * N, update hn' s.H s.H0 (flatten atoms.positions)
        (flatten (atoms.forceField atoms.positions)) s.r0 s.f0 = none := fun _ => hu
    unfold step at h
    dsimp only at h
    rw [hgen] at h
    exact Option.noConfusion h
  · have hgen : ∀ hn' : 0 < 3 * N, update hn' s.H s.H0 (flatten atoms.positions)
        (flatten (atoms.forceField atoms.positions)) s.r0 s.f0 = some H1 := fun _ => hu
    unfold step at h
    dsimp only at h
    rw [hgen] at h
    simp only [Option.some.injEq, Prod.mk.injEq] at h
    exact ⟨H1, rfl, h.1.symm⟩

/-- Unfolding of `update` when `H`, `r0` and `f0` are all set. -/
theorem update_some {n : ℕ} (hn : 0 < n) (Hm H0 : Mat n) (r f r0v f0v : Vec n) :
    update hn (some Hm) H0 r f (some r0v) (some f0v) =
      if vmax hn (fun i => |(r - r0v) i|) < 1 / 10 ^ 7 then some Hm
      else some (Hm - ((Matrix.vecMulVec (f - f0v) (f - f0v)).map
          (fun x => x / Matrix.dotProduct (r - r0v) (f - f0v)) +
        (Matrix.vecMulVec (Hm.mulVec (r - r0v)) (Hm.mulVec (r - r0v))).map
          (fun x => x / Matrix.dotProduct (r - r0v) (Hm.mulVec (r - r0v))))) := rfl

/-! ### Claim theorems -/

/-- C1: for every update call in which `H` is already set and the maximum
absolute component of `dr = r - r0` is at least `1e-7`, `update(r, f, r0, f0)`
replaces `H` by `H - (outer(df,df)/a + outer(dg,dg)/b)` where `df = f - f0`,
`a = dr·df`, `dg = H·dr` and `b = dr·dg`. -/
theorem c1_update_formula {n : ℕ} (hn : 0 < n) (Hm H0 : Mat n) (r f r0v f0v : Vec n)
    (hbig : 1 / 10 ^ 7 ≤ vmax hn fun i => |r i - r0v i|) :
    update hn (some Hm) H0 r f (some r0v) (some f0v) =
      some (Matrix.of fun i j =>
        Hm i j -
          ((f i - f0v i) * (f j - f0v j) /
              (∑ k, (r k - r0v k) * (f k - f0v k)) +
            (∑ k, Hm i k * (r k - r0v k)) * (∑ k, Hm j k * (r k - r0v k)) /
              (∑ k, (r k - r0v k) * ∑ l, Hm k l * (r l - r0v l)))) := by
  have hcond : ¬ vmax hn (fun i => |(r - r0v) i|) < 1 / 10 ^ 7 := not_lt.mpr hbig
  simp only [update, if_neg hcond]
  rfl

/-- Witness for C1 at `n = 1`, `r = 1`, `r0 = 0`, `f = 2`, `f0 = 0`, `H = 1`. -/
theorem c1_update_formula_witness :
    (1 / 10 ^ 7 ≤ vmax Nat.one_pos fun i => |v1 i - v0 i|) ∧
    update Nat.one_pos (some 1) 1 v1 v2 (some v0) (some v0) =
      some (Matrix.of fun i j =>
        (1 : Mat 1) i j -
          ((v2 i - v0 i) * (v2 j - v0 j) / (∑ k, (v1 k - v0 k) * (v2 k - v0 k)) +
            (∑ k, (1 : Mat 1) i k * (v1 k - v0 k)) * (∑ k, (1 : Mat 1) j k * (v1 k - v0 k)) /
              (∑ k, (v1 k - v0 k) * ∑ l, (1 : Mat 1) k l * (v1 l - v0 l)))) := by
  have hbig : (1 / 10 ^ 7 : ℚ) ≤ vmax Nat.one_pos fun i => |v1 i - v0 i| := by
    have h : (fun i : Fin 1 => |v1 i - v0 i|) = fun _ => (1 : ℚ) := by
      funext i; simp [v1, v0]
    rw [h, vmax_const]; norm_num
  exact ⟨hbig, c1_update_formula Nat.one_pos 1 1 v1 v2 v0 v0 hbig⟩

/-- C2: `determine_step(dr, steplengths)` returns `dr` unchanged when the
largest step length is below `maxstep`, and otherwise rescales every
particle's displacement by the single factor `maxstep / max(steplengths)`;
consequently (for Euclidean step lengths and a positive bound) the capped
step lengths never exceed `maxstep`, the maximum equals `maxstep` exactly
whenever the uncapped maximum exceeded it, and the result is a nonnegative
scalar multiple of the input. -/
theorem c2_determine_step_cap {N : ℕ} (hN : 0 < N) (maxstep : ℚ)
    (dr : Fin N → Fin 3 → ℚ) (sl : Fin N → ℚ) (hms : 0 < maxstep)
    (hsl0 : ∀ i, 0 ≤ sl i) (hsl : ∀ i, sl i ^ 2 = ∑ j : Fin 3, dr i j ^ 2) :
    (vmax hN sl < maxstep → determine_step hN maxstep dr sl = dr) ∧
    (maxstep ≤ vmax hN sl →
      determine_step hN maxstep dr sl = fun i j => dr i j * (maxstep / vmax hN sl)) ∧
    (∃ c : ℚ, 0 ≤ c ∧ determine_step hN maxstep dr sl = fun i j => c * dr i j) ∧
    (∀ i, ∑ j : Fin 3, determine_step hN maxstep dr sl i j ^ 2 ≤ maxstep ^ 2) ∧
    (maxstep < vmax hN sl →
      vmax hN (fun i => ∑ j : Fin 3, determine_step hN maxstep dr sl i j ^ 2) =
        maxstep ^ 2) := by
  have hM0 : 0 ≤ vmax hN sl := le_trans (hsl0 ⟨0, hN⟩) (le_vmax hN sl ⟨0, hN⟩)
  by_cases h : maxstep ≤ vmax hN sl
  · -- capped branch
    have hMpos : 0 < vmax hN sl := lt_of_lt_of_le hms h
    have hds : determine_step hN maxstep dr sl =
        fun i j => dr i j * (maxstep / vmax hN sl) := by
      simp only [determine_step, ge_iff_le, if_pos h]
    have hc0 : 0 ≤ maxstep / vmax hN sl := div_nonneg hms.le hM0
    have hlen : ∀ i, ∑ j : Fin 3, determine_step hN maxstep dr sl i j ^ 2 =
        (sl i * (maxstep / vmax hN sl)) ^ 2 := by
      intro i
      rw [hds]
      simp only [mul_pow]
      rw [← Finset.sum_mul, ← hsl i]
    have hcap : ∀ i, sl i * (maxstep / vmax hN sl) ≤ maxstep := by
      intro i
      calc sl i * (maxstep / vmax hN sl)
          ≤ vmax hN sl * (maxstep / vmax hN sl) :=
            mul_le_mul_of_nonneg_right (le_vmax hN sl i) hc0
        _ = maxstep := mul_div_cancel₀ maxstep hMpos.ne'
    have hbound : ∀ i, ∑ j : Fin 3, determine_step hN maxstep dr sl i j ^ 2 ≤ maxstep ^ 2 := by
      intro i
      rw [hlen i]
      exact pow_le_pow_left₀ (mul_nonneg (hsl0 i) hc0) (hcap i) 2
    refine ⟨fun hlt => absurd hlt (not_lt.mpr h), fun _ => hds,
      ⟨maxstep / vmax hN sl, hc0, by rw [hds]; funext i j; exact mul_comm ..⟩,
      hbound, fun _ => ?_⟩
    obtain ⟨i0, hi0⟩ := exists_eq_vmax hN sl
    refine le_antisymm (vmax_le _ _ _ hbound) ?_
    have : ∑ j : Fin 3, determine_step hN maxstep dr sl i0 j ^ 2 = maxstep ^ 2 := by
      rw [hlen i0, ← hi0, mul_div_cancel₀ maxstep hMpos.ne']
    exact this ▸ le_vmax hN _ i0
  · -- uncapped branch
    have hlt : vmax hN sl < maxstep := not_le.mp h
    have hds : determine_step hN maxstep dr sl = dr := by
      simp only [determine_step, ge_iff_le, if_neg h]
    have hbound : ∀ i, ∑ j : Fin 3, determine_step hN maxstep dr sl i j ^ 2 ≤ maxstep ^ 2 := by
      intro i
      rw [hds, ← hsl i]
      exact pow_le_pow_left₀ (hsl0 i) (le_of_lt (lt_of_le_of_lt (le_vmax hN sl i) hlt)) 2
    exact ⟨fun _ => hds, fun hle => absurd hle h,
      ⟨1, zero_le_one, by rw [hds]; funext i j; exact (one_mul _).symm⟩,
      hbound, fun hgt => absurd hgt (not_lt.mpr hlt.le)⟩

/-- Witness for C2 at one particle with raw displacement `(0, 0, -1)` of
length `1` and `maxstep = 0.04` (the capped branch). -/
theorem c2_determine_step_cap_witness :
    0 < 1 ∧ (0 : ℚ) < 1/25 ∧ (∀ i : Fin 1, 0 ≤ sl1 i) ∧
    (∀ i, sl1 i ^ 2 = ∑ j : Fin 3, fz i j ^ 2) ∧
    ((vmax Nat.one_pos sl1 < 1/25 → determine_step Nat.one_pos (1/25) fz sl1 = fz) ∧
    (1/25 ≤ vmax Nat.one_pos sl1 →
      determine_step Nat.one_pos (1/25) fz sl1 =
        fun i j => fz i j * ((1/25) / vmax Nat.one_pos sl1)) ∧
    (∃ c : ℚ, 0 ≤ c ∧ determine_step Nat.one_pos (1/25) fz sl1 = fun i j => c * fz i j) ∧
    (∀ i, ∑ j : Fin 3, determine_step Nat.one_pos (1/25) fz sl1 i j ^ 2 ≤ (1/25) ^ 2) ∧
    (1/25 < vmax Nat.one_pos sl1 →
      vmax Nat.one_pos (fun i => ∑ j : Fin 3, determine_step Nat.one_pos (1/25) fz sl1 i j ^ 2) =
        (1/25) ^ 2)) :=
  ⟨Nat.one_pos, by norm_num, fun i => by simp [sl1],
    fun i => by simp [sl1, fz, Fin.sum_univ_three],
    c2_determine_step_cap Nat.one_pos (1/25) fz sl1 (by norm_num) (fun i => by simp [sl1])
      (fun i => by simp [sl1, fz, Fin.sum_univ_three])⟩

/-- C3: `converged()` returns true iff the maximum per-particle sum of squared
force components is strictly below `fmax ^ 2`; at exact equality it returns
false.  (In the embedding `converged` is a pure function of the state and the
external system, so it modifies no Core state by construction.) -/
theorem c3_converged_iff {N : ℕ} (hN : 0 < N) (s : BFGSState N) (atoms : Atoms N) :
    (converged hN s atoms = true ↔
      vmax hN (fun i => ∑ j : Fin 3, atoms.forceField atoms.positions i j ^ 2) < s.fmax ^ 2) ∧
    (vmax hN (fun i => ∑ j : Fin 3, atoms.forceField atoms.positions i j ^ 2) = s.fmax ^ 2 →
      converged hN s atoms = false) := by
  constructor
  · simp [converged]
  · intro h
    simp [converged, h]

/-- Witness for C3 at a one-particle system with force `(0, 0, -1)` and the
default construction parameters. -/
theorem c3_converged_iff_witness :
    0 < 1 ∧
    ((converged Nat.one_pos (init 1 (1/25) (1/20) 70).1 atomsZ = true ↔
      vmax Nat.one_pos (fun i => ∑ j : Fin 3, atomsZ.forceField atomsZ.positions i j ^ 2) <
        (init 1 (1/25) (1/20) 70).1.fmax ^ 2) ∧
    (vmax Nat.one_pos (fun i => ∑ j : Fin 3, atomsZ.forceField atomsZ.positions i j ^ 2) =
        (init 1 (1/25) (1/20) 70).1.fmax ^ 2 →
      converged Nat.one_pos (init 1 (1/25) (1/20) 70).1 atomsZ = false)) :=
  ⟨Nat.one_pos, c3_converged_iff Nat.one_pos (init 1 (1/25) (1/20) 70).1 atomsZ⟩

/-- C4: on the very first update call of a freshly constructed Core (`H`
unset), `update` sets `H` to exactly `alpha` times the `3N × 3N` identity and
returns immediately: the result does not depend on `r`, `f`, `r0` or `f0`. -/
theorem c4_first_update_sets_H0 {N : ℕ} (hn : 0 < 3 * N) (maxstep fmax alpha : ℚ)
    (r f : Vec (3 * N)) (r0 f0 : Option (Vec (3 * N))) :
    update hn (init N maxstep fmax alpha).1.H (init N maxstep fmax alpha).1.H0 r f r0 f0 =
      some (alpha • (1 : Mat (3 * N))) := by
  show update hn none (alpha • 1) r f r0 f0 = some (alpha • 1)
  rfl

/-- Witness for C4 at `N = 1`, default parameters, with `r0 = f0 = None`. -/
theorem c4_first_update_sets_H0_witness :
    0 < 3 * 1 ∧
    update (by omega : 0 < 3 * 1) (init 1 (1/25) (1/20) 70).1.H
        (init 1 (1/25) (1/20) 70).1.H0 (fun _ => 0) (fun _ => 0) none none =
      some ((70 : ℚ) • (1 : Mat (3 * 1))) :=
  ⟨by omega, c4_first_update_sets_H0 (by omega : 0 < 3 * 1) (1/25) (1/20) 70 (fun _ => 0)
    (fun _ => 0) none none⟩

/-- C5: when `H` is already set and the maximum absolute component of
`dr = r - r0` is strictly below `1e-7`, `update` returns without modifying
`H`; hence two consecutive `step()` calls against an external system whose
positions and forces do not change between the calls leave `H` unchanged by
the second call. -/
theorem c5_degenerate_guard :
    (∀ (n : ℕ) (hn : 0 < n) (Hm H0 : Mat n) (r f r0v f0v : Vec n),
      vmax hn (fun i => |r i - r0v i|) < 1 / 10 ^ 7 →
      update hn (some Hm) H0 r f (some r0v) (some f0v) = some Hm) ∧
    (∀ (N : ℕ) (hN : 0 < N) (s : BFGSState N) (atoms atoms2 : Atoms N)
        (omega : Vec (3 * N)) (V : Mat (3 * N)) (sl : Fin N → ℚ)
        (omega2 : Vec (3 * N)) (V2 : Mat (3 * N)) (sl2 : Fin N → ℚ)
        (s1 : BFGSState N) (a1 : Atoms N) (s2 : BFGSState N) (a2 : Atoms N),
      atoms2.positions = atoms.positions →
      atoms2.forceField atoms2.positions = atoms.forceField atoms.positions →
      step hN s atoms omega V sl = some (s1, a1) →
      step hN s1 atoms2 omega2 V2 sl2 = some (s2, a2) →
      s2.H = s1.H) := by
  have hguard : ∀ (n : ℕ) (hn : 0 < n) (Hm H0 : Mat n) (r f r0v f0v : Vec n),
      vmax hn (fun i => |r i - r0v i|) < 1 / 10 ^ 7 →
      update hn (some Hm) H0 r f (some r0v) (some f0v) = some Hm := by
    intro n hn Hm H0 r f r0v f0v hlt
    rw [update_some]
    exact if_pos hlt
  refine ⟨hguard, ?_⟩
  intro N hN s atoms atoms2 omega V sl omega2 V2 sl2 s1 a1 s2 a2 hpos hff h1 h2
  have hn : 0 < 3 * N := by omega
  obtain ⟨H1, hu1, hs1⟩ := step_inv hN hn s atoms omega V sl s1 a1 h1
  obtain ⟨H2, hu2, hs2⟩ := step_inv hN hn s1 atoms2 omega2 V2 sl2 s2 a2 h2
  rw [hs1] at hu2
  dsimp only at hu2
  rw [hff, hpos] at hu2
  have hzero : (fun i => |(flatten atoms.positions - flatten atoms.positions) i|) =
      fun _ : Fin (3 * N) => (0 : ℚ) := by
    funext i; simp
  have cond : vmax hn (fun i => |(flatten atoms.positions - flatten atoms.positions) i|) <
      1 / 10 ^ 7 := by
    rw [hzero, vmax_const]; norm_num
  rw [update_some, if_pos cond] at hu2
  have hH21 : H2 = H1 := (Option.some.inj hu2).symm
  rw [hs1, hs2, hH21]

/-- Witness for C5: two consecutive steps of a fresh default Core against a
one-particle system whose reads never change leave `H` unchanged by the
second call. -/
theorem c5_degenerate_guard_witness :
    atomsZ.positions = atomsZ.positions ∧
    atomsZ.forceField atomsZ.positions = atomsZ.forceField atomsZ.positions ∧
    step Nat.one_pos (init 1 (1/25) (1/20) 70).1 atomsZ (fun _ => 70) 1 sl70 =
      some (s1c, a1c) ∧
    step Nat.one_pos s1c atomsZ (fun _ => 70) 1 sl70 = some (s2c, a1c) ∧
    s2c.H = s1c.H := by
  have h1 : step Nat.one_pos (init 1 (1/25) (1/20) 70).1 atomsZ (fun _ => 70) 1 sl70 =
      some (s1c, a1c) :=
    step_eq Nat.one_pos (init 1 (1/25) (1/20) 70).1 atomsZ (fun _ => 70) 1 sl70 H70
      (fun _ => rfl)
  have h2 : step Nat.one_pos s1c atomsZ (fun _ => 70) 1 sl70 = some (s2c, a1c) := by
    refine step_eq Nat.one_pos s1c atomsZ (fun _ => 70) 1 sl70 H70 (fun hn => ?_)
    show update hn (some H70) (init 1 (1/25) (1/20) 70).1.H0 (flatten atomsZ.positions)
      (flatten (atomsZ.forceField atomsZ.positions)) (some (flatten atomsZ.positions))
      (some (flatten (atomsZ.forceField atomsZ.positions))) = some H70
    rw [update_some]
    refine if_pos ?_
    have hzero : (fun i => |(flatten atomsZ.positions - flatten atomsZ.positions) i|) =
        fun _ : Fin (3 * 1) => (0 : ℚ) := by
      funext i; simp
    rw [hzero, vmax_const]
    norm_num
  exact ⟨rfl, rfl, h1, h2,
    c5_degenerate_guard.2 1 Nat.one_pos (init 1 (1/25) (1/20) 70).1 atomsZ atomsZ
      (fun _ => 70) 1 sl70 (fun _ => 70) 1 sl70 s1c a1c s2c a1c rfl rfl h1 h2⟩

/-- C6: symmetry is an invariant of `H`: the lazily-installed first value
`H0 = alpha • I` is symmetric, and (in exact arithmetic) every successful
`update` call starting from a symmetric `H` and a symmetric `H0` produces a
symmetric matrix, because the BFGS-style update subtracts a sum of two
symmetric outer-product terms `outer(df,df)/a` and `outer(dg,dg)/b`. -/
theorem c6_H_symmetric :
    (∀ (N : ℕ) (maxstep fmax alpha : ℚ), ((init N maxstep fmax alpha).1.H0).IsSymm) ∧
    (∀ (n : ℕ) (hn : 0 < n) (H : Option (Mat n)) (H0 : Mat n) (r f : Vec n)
        (r0 f0 : Option (Vec n)) (Hp : Mat n),
      H0.IsSymm → (∀ Hm, H = some Hm → Hm.IsSymm) →
      update hn H H0 r f r0 f0 = some Hp → Hp.IsSymm) := by
  constructor
  · intro N maxstep fmax alpha
    exact Matrix.isSymm_one.smul alpha
  · intro n hn H H0 r f r0 f0 Hp hH0 hH hupd
    cases H with
    | none =>
      obtain rfl : H0 = Hp := Option.some.inj hupd
      exact hH0
    | some Hm =>
      have hHm : Hm.IsSymm := hH Hm rfl
      cases r0 with
      | none => exact Option.noConfusion hupd
      | some r0v =>
        cases f0 with
        | none => exact Option.noConfusion hupd
        | some f0v =>
          rw [update_some] at hupd
          by_cases hg : vmax hn (fun i => |(r - r0v) i|) < 1 / 10 ^ 7
          · rw [if_pos hg] at hupd
            obtain rfl : Hm = Hp := Option.some.inj hupd
            exact hHm
          · rw [if_neg hg] at hupd
            obtain rfl := Option.some.inj hupd
            exact hHm.sub
              (Matrix.IsSymm.add
                ((Matrix.IsSymm.ext fun i j => mul_comm _ _).map _)
                ((Matrix.IsSymm.ext fun i j => mul_comm _ _).map _))

/-- Witness for C6: the default `H0` at `N = 1` is symmetric, and an update
from an unset `H` with symmetric `H0 = I` yields a symmetric matrix. -/
theorem c6_H_symmetric_witness :
    ((init 1 (1/25) (1/20) 70).1.H0).IsSymm ∧ (1 : Mat 1).IsSymm :=
  ⟨c6_H_symmetric.1 1 (1/25) (1/20) 70,
   c6_H_symmetric.2 1 Nat.one_pos none 1 v0 v0 none none 1 Matrix.isSymm_one
     (fun _ h => Option.noConfusion h) rfl⟩

/-- C7: scenario — a single particle at the origin with force `(0, 0, -1)`,
`alpha = 70` and `maxstep = 0.04`: the first `step()` on a fresh Core sets
`H` to `70` times the `3 × 3` identity, computes the raw displacement
`(0, 0, -1/70)` (length `1/70`, below `maxstep`, so no rescaling applies)
and writes the new position `(0, 0, -1/70)` to the external system.  The
`torch.symeig` output is any valid orthogonal eigendecomposition of the
updated `H`, and `sl` any nonnegative square root of the per-particle sums
of squared raw displacements. -/
theorem c7_first_step_scenario (fmax : ℚ) (atoms : Atoms 1)
    (omega : Vec (3 * 1)) (V : Mat (3 * 1)) (sl : Fin 1 → ℚ)
    (hpos : atoms.positions = zpos)
    (hforce : atoms.forceField atoms.positions = fz)
    (hV : V.transpose * V = 1)
    (hVeig : V * Matrix.diagonal omega * V.transpose = (70 : ℚ) • 1)
    (hsl0 : ∀ i, 0 ≤ sl i)
    (hsl : ∀ i, sl i ^ 2 =
      ∑ j : Fin 3, rawStep (flatten (atoms.forceField atoms.positions)) omega V i j ^ 2) :
    rawStep (flatten (atoms.forceField atoms.positions)) omega V =
      (fun _ j => if j = 2 then -(1/70) else 0) ∧
    step Nat.one_pos (init 1 (1/25) fmax 70).1 atoms omega V sl =
      some ({ (init 1 (1/25) fmax 70).1 with
                H := some ((70 : ℚ) • 1)
                r0 := some (flatten atoms.positions)
                f0 := some (flatten fz) },
        { atoms with positions := fun _ j => if j = 2 then -(1/70) else 0 }) := by
  -- all eigenvalues of `70 • 1` are `70`
  have hVV : V * V.transpose = 1 := Matrix.mul_eq_one_comm.mp hV
  have hdiag : Matrix.diagonal omega = (70 : ℚ) • 1 := by
    calc Matrix.diagonal omega
        = (V.transpose * V) * Matrix.diagonal omega * (V.transpose * V) := by
            rw [hV, Matrix.one_mul, Matrix.mul_one]
      _ = V.transpose * (V * Matrix.diagonal omega * V.transpose) * V := by
            simp only [Matrix.mul_assoc]
      _ = V.transpose * ((70 : ℚ) • 1) * V := by rw [hVeig]
      _ = (70 : ℚ) • (V.transpose * V) := by rw [Matrix.mul_smul, Matrix.mul_one, Matrix.smul_mul]
      _ = (70 : ℚ) • 1 := by rw [hV]
  have homega : ∀ j, omega j = 70 := by
    intro j
    have h := congrFun (congrFun hdiag j) j
    simpa [Matrix.diagonal_apply_eq, Matrix.smul_apply, Matrix.one_apply_eq] using h
  -- the raw displacement is the force divided by 70
  have hflat : rawStep (flatten fz) omega V =
      fun _ j => if j = 2 then -(1/70) else 0 := by
    unfold rawStep
    have h1 : (fun j => Matrix.vecMul (flatten fz) V j / |omega j|) =
        (70 : ℚ)⁻¹ • Matrix.vecMul (flatten fz) V := by
      funext j
      rw [homega j]
      rw [Pi.smul_apply, smul_eq_mul, div_eq_inv_mul]
      norm_num
    rw [h1, Matrix.mulVec_smul, ← Matrix.mulVec_transpose, Matrix.mulVec_mulVec, hVV,
      Matrix.one_mulVec]
    funext i j
    simp only [unflatten, Pi.smul_apply, smul_eq_mul]
    rw [flatten_at]
    fin_cases j <;> simp [fz]
  -- the steplength oracle is forced to be `1/70`
  have hsl1 : ∀ i, sl i = 1/70 := by
    intro i
    have h2 : sl i ^ 2 = (1/70 : ℚ) ^ 2 := by
      have h := hsl i
      rw [hforce, hflat] at h
      rw [h, Fin.sum_univ_three]
      dsimp only
      rw [if_neg (show ¬((0 : Fin 3) = 2) by decide), if_neg (show ¬((1 : Fin 3) = 2) by decide),
        if_pos (show (2 : Fin 3) = 2 from rfl)]
      norm_num
    have h3 : (sl i - 1/70) * (sl i + 1/70) = 0 := by linear_combination h2
    rcases mul_eq_zero.mp h3 with h4 | h4
    · linarith
    · have := hsl0 i
      linarith
  -- the capped step is the raw step
  have hds : determine_step Nat.one_pos (init 1 (1/25) fmax 70).1.maxstep
      (fun (_ : Fin 1) (j : Fin 3) => if j = 2 then -(1/70) else 0) sl =
      fun _ j => if j = 2 then -(1/70) else 0 := by
    show determine_step Nat.one_pos (1/25)
      (fun (_ : Fin 1) (j : Fin 3) => if j = 2 then -(1/70) else 0) sl = _
    have hvm : vmax Nat.one_pos sl = 1/70 := by rw [vmax_fin1]; exact hsl1 0
    simp only [determine_step, hvm, ge_iff_le]
    rw [if_neg (by norm_num)]
  -- the update installs `H0 = 70 • 1`
  have hupd : ∀ hn : 0 < 3 * 1, update hn (init 1 (1/25) fmax 70).1.H
      (init 1 (1/25) fmax 70).1.H0 (flatten atoms.positions)
      (flatten (atoms.forceField atoms.positions)) (init 1 (1/25) fmax 70).1.r0
      (init 1 (1/25) fmax 70).1.f0 = some ((70 : ℚ) • 1) := fun _ => rfl
  have hstep := step_eq Nat.one_pos (init 1 (1/25) fmax 70).1 atoms omega V sl
    ((70 : ℚ) • 1) hupd
  rw [hforce, hflat, hds] at hstep
  refine ⟨by rw [hforce]; exact hflat, ?_⟩
  rw [hstep]
  have hpose : (fun i j => atoms.positions i j +
      (fun (_ : Fin 1) (j : Fin 3) => if j = 2 then -(1/70) else 0) i j) =
      fun (_ : Fin 1) (j : Fin 3) => if j = 2 then -(1/70 : ℚ) else 0 := by
    funext i j
    rw [hpos]
    simp [zpos]
  rw [hpose]

/-- Witness for C7: the identity eigenvector basis, eigenvalues all `70` and
step length `1/70` satisfy the oracle constraints, and the first step moves
the particle to `(0, 0, -1/70)`. -/
theorem c7_first_step_scenario_witness :
    atomsZ.positions = zpos ∧
    atomsZ.forceField atomsZ.positions = fz ∧
    (1 : Mat (3 * 1)).transpose * 1 = 1 ∧
    (1 : Mat (3 * 1)) * Matrix.diagonal (fun _ => (70 : ℚ)) * (1 : Mat (3 * 1)).transpose =
      (70 : ℚ) • 1 ∧
    (∀ i : Fin 1, 0 ≤ sl70 i) ∧
    (∀ i, sl70 i ^ 2 = ∑ j : Fin 3,
      rawStep (flatten (atomsZ.forceField atomsZ.positions)) (fun _ => 70) 1 i j ^ 2) ∧
    (rawStep (flatten (atomsZ.forceField atomsZ.positions)) (fun _ => 70) 1 =
      (fun _ j => if j = 2 then -(1/70) else 0) ∧
    step Nat.one_pos (init 1 (1/25) (1/20) 70).1 atomsZ (fun _ => 70) 1 sl70 =
      some ({ (init 1 (1/25) (1/20) 70).1 with
                H := some ((70 : ℚ) • 1)
                r0 := some (flatten atomsZ.positions)
                f0 := some (flatten fz) },
        { atomsZ with positions := fun _ j => if j = 2 then -(1/70) else 0 })) := by
  have hV : (1 : Mat (3 * 1)).transpose * 1 = 1 := by
    rw [Matrix.transpose_one, Matrix.one_mul]
  have hVeig : (1 : Mat (3 * 1)) * Matrix.diagonal (fun _ => (70 : ℚ)) *
      (1 : Mat (3 * 1)).transpose = (70 : ℚ) • 1 := by
    rw [Matrix.transpose_one, Matrix.one_mul, Matrix.mul_one]
    ext i j
    rcases eq_or_ne i j with h | h
    · subst h
      simp [Matrix.diagonal_apply_eq, Matrix.smul_apply, Matrix.one_apply_eq]
    · simp [Matrix.diagonal_apply_ne _ h, Matrix.smul_apply, Matrix.one_apply_ne h]
  have hraw : rawStep (flatten fz) (fun _ => (70 : ℚ)) 1 =
      fun _ j => if j = 2 then -(1/70) else 0 := by
    unfold rawStep
    have h1 : (fun j => Matrix.vecMul (flatten fz) 1 j / |(fun _ => (70 : ℚ)) j|) =
        fun j => flatten fz j / 70 := by
      funext j
      rw [Matrix.vecMul_one]
      norm_num
    rw [h1, Matrix.one_mulVec]
    funext i j
    simp only [unflatten]
    rw [flatten_at]
    fin_cases j <;> simp [fz] <;> norm_num
  have hsl0 : ∀ i : Fin 1, 0 ≤ sl70 i := fun i => by norm_num [sl70]
  have hsl : ∀ i, sl70 i ^ 2 = ∑ j : Fin 3,
      rawStep (flatten (atomsZ.forceField atomsZ.positions)) (fun _ => 70) 1 i j ^ 2 := by
    intro i
    show (1/70 : ℚ) ^ 2 = ∑ j : Fin 3, rawStep (flatten fz) (fun _ => 70) 1 i j ^ 2
    rw [hraw, Fin.sum_univ_three]
    dsimp only
    rw [if_neg (show ¬((0 : Fin 3) = 2) by decide), if_neg (show ¬((1 : Fin 3) = 2) by decide),
      if_pos (show (2 : Fin 3) = 2 from rfl)]
    norm_num
  exact ⟨rfl, rfl, hV, hVeig, hsl0, hsl,
    c7_first_step_scenario (1/20) atomsZ (fun _ => 70) 1 sl70 rfl rfl hV hVeig hsl0 hsl⟩

/-- C9: construction emits the non-fatal warning exactly when
`maxstep > 1.0`, and in every case completes with the given `maxstep` stored
unchanged. -/
theorem c9_maxstep_warning (N : ℕ) (maxstep fmax alpha : ℚ) :
    ((init N maxstep fmax alpha).2 = true ↔ 1 < maxstep) ∧
    (maxstep ≤ 1 → (init N maxstep fmax alpha).2 = false) ∧
    (init N maxstep fmax alpha).1.maxstep = maxstep := by
  refine ⟨?_, fun h => ?_, rfl⟩
  · show decide (maxstep > (1.0 : ℚ)) = true ↔ 1 < maxstep
    rw [decide_eq_true_iff]
    norm_num
  · show decide (maxstep > (1.0 : ℚ)) = false
    rw [decide_eq_false_iff_not]
    norm_num
    exact h

/-- C10: `run`'s `fmax` parameter is dead: with the same initial state, the
same external system and the same numerical oracles, `run` returns the same
result for any two values of the argument (convergence is always tested
against the `fmax` stored at construction time). -/
theorem c10_run_fmax_unused {N : ℕ} (hN : 0 < N)
    (eigO : ℕ → Vec (3 * N) × Mat (3 * N)) (slO : ℕ → Fin N → ℚ)
    (s : BFGSState N) (atoms : Atoms N) (fmax1 fmax2 : ℚ) :
    run hN eigO slO s atoms fmax1 = run hN eigO slO s atoms fmax2 := rfl

/-- Witness for C10 at a one-particle system, `fmax` arguments `0` and `1`. -/
theorem c10_run_fmax_unused_witness :
    0 < 1 ∧
    run Nat.one_pos (fun _ => (fun _ => 70, 1)) (fun _ _ => 0)
        (init 1 (1/25) (1/20) 70).1 atomsZ 0 =
      run Nat.one_pos (fun _ => (fun _ => 70, 1)) (fun _ _ => 0)
        (init 1 (1/25) (1/20) 70).1 atomsZ 1 :=
  ⟨Nat.one_pos, c10_run_fmax_unused Nat.one_pos (fun _ => (fun _ => 70, 1)) (fun _ _ => 0)
    (init 1 (1/25) (1/20) 70).1 atomsZ 0 1⟩

end BFGSTorch
